import Mathlib

/-!
Verification of the unbalanced binary-search-tree key-value store in
`src/bst.py`. The tree of `TreeNode` objects is embedded as an inductive
type `Tree α` (keys are `Int`, modelling Python's totally ordered keys;
values are an arbitrary payload type `α`). The mutating methods of
`BinarySearchTree` are embedded as pure functions from the old root to the
new root: `insert`, `search`, `delTree` (the inner `_delete`, returning the
new subtree root and the removed flag), `height` (the inner `_height`) and
`check` (the inner `_check` of `is_balanced`).
-/

namespace BSTSpec

/-- A node in the binary search tree (`TreeNode` in `src/bst.py`); `nil`
is Python's `None` child reference. -/
inductive Tree (α : Type) where
  | nil : Tree α
  | node (key : Int) (value : α) (left : Tree α) (right : Tree α) : Tree α
deriving DecidableEq

namespace Tree

/-- `BinarySearchTree.insert`: walks comparing `k` to the current node's
key; equal overwrites the value, smaller goes left, greater goes right,
creating a leaf where a child reference is absent. -/
def insert {α : Type} : Tree α → Int → α → Tree α
  | .nil, k, v => .node k v .nil .nil
  | .node ck cv l r, k, v =>
    if k = ck then .node ck v l r
    else if k < ck then .node ck cv (insert l k v) r
    else .node ck cv l (insert r k v)

/-- `BinarySearchTree.search`: returns the value at key `k`, or `none`. -/
def search {α : Type} : Tree α → Int → Option α
  | .nil, _ => none
  | .node ck cv l r, k =>
    if k = ck then some cv
    else if k < ck then search l k
    else search r k

/-- The successor scan of `_delete`: starting from node `(k, v)`, follow
`left` references while they exist (`successor = node.right; while
successor.left: successor = successor.left`), returning the key and value
of the leftmost node reached. -/
def leftmostFrom {α : Type} (k : Int) (v : α) : Tree α → Int × α
  | .nil => (k, v)
  | .node ck cv l _ => leftmostFrom ck cv l

/-- Number of reachable nodes of a tree. -/
def tsize {α : Type} : Tree α → Nat
  | .nil => 0
  | .node _ _ l r => 1 + tsize l + tsize r

/-- The recursive helper `_delete(node, target)` of
`BinarySearchTree.delete`: returns the new subtree root together with the
removed flag. Smaller targets recurse left, greater targets recurse right;
at the matched node a leaf is dropped, a single child is spliced in, and a
node with two children receives the key and value of the in-order
successor, whose original key is then deleted from the right subtree. -/
def delTree {α : Type} : Tree α → Int → Tree α × Bool
  | .nil, _ => (.nil, false)
  | .node ck cv l r, target =>
    if target < ck then
      let p := delTree l target
      (.node ck cv p.1 r, p.2)
    else if target > ck then
      let p := delTree r target
      (.node ck cv l p.1, p.2)
    else
      match l, r with
      | .nil, rr => (rr, true)
      | .node lk lv la lb, .nil => (.node lk lv la lb, true)
      | .node lk lv la lb, .node rk rv rl rr =>
        let s := leftmostFrom rk rv rl
        let p := delTree (.node rk rv rl rr) s.1
        (.node s.1 s.2 (.node lk lv la lb) p.1, true)

/-- `BinarySearchTree.delete`: new root and whether a node was removed. -/
def delete {α : Type} (t : Tree α) (k : Int) : Tree α × Bool := delTree t k

/-- The recursive helper `_height` of `BinarySearchTree.height`: number of
nodes on the longest root-to-leaf path. -/
def height {α : Type} : Tree α → Nat
  | .nil => 0
  | .node _ _ l r => 1 + max (height l) (height r)

/-- The recursive helper `_check` of `BinarySearchTree.is_balanced`:
single bottom-up pass returning `(subtree height, subtree balanced)`, the
flag aggregated by logical and of the left flag, the right flag and the
local height-difference bound. -/
def check {α : Type} : Tree α → Nat × Bool
  | .nil => (0, true)
  | .node _ _ l r =>
    let lp := check l
    let rp := check r
    (1 + max lp.1 rp.1,
      lp.2 && rp.2 && decide (((lp.1 : Int) - (rp.1 : Int)).natAbs ≤ 1))

/-- `BinarySearchTree.is_balanced`: the flag component of `check`. -/
def isBalanced {α : Type} (t : Tree α) : Bool := (check t).2

/-- In-order traversal of the keys. -/
def keys {α : Type} : Tree α → List Int
  | .nil => []
  | .node k _ l r => keys l ++ k :: keys r

/-- Whether every key of the tree satisfies the predicate `p`. -/
def allB {α : Type} (p : Int → Bool) : Tree α → Bool
  | .nil => true
  | .node k _ l r => p k && allB p l && allB p r

/-- The BST ordering invariant: at every node, all keys of the left
subtree are strictly smaller and all keys of the right subtree are
strictly greater than the node's key. -/
def isBST {α : Type} : Tree α → Bool
  | .nil => true
  | .node k _ l r =>
    allB (fun x => decide (x < k)) l && allB (fun x => decide (k < x)) r
      && isBST l && isBST r

/-- Which structural case `_delete` resolves through at the matched node:
`true` exactly when the matched node has two children (case 3). `false`
when the target is not found or the matched node is a leaf (case 1) or has
one child (case 2). -/
def delTwoChild {α : Type} : Tree α → Int → Bool
  | .nil, _ => false
  | .node ck _ l r, target =>
    if target < ck then delTwoChild l target
    else if target > ck then delTwoChild r target
    else
      match l, r with
      | .nil, _ => false
      | .node _ _ _ _, .nil => false
      | .node _ _ _ _, .node _ _ _ _ => true

end Tree

/-- The shape of a tree: its node structure with keys and values erased. -/
inductive Shape where
  | leaf : Shape
  | node (l r : Shape) : Shape
deriving DecidableEq

namespace Tree

/-- Pure shape of a tree, forgetting keys and values. -/
def shape {α : Type} : Tree α → Shape
  | .nil => .leaf
  | .node _ _ l r => .node (shape l) (shape r)

/-- Number of nodes holding key `k`. -/
def countKey {α : Type} (t : Tree α) (k : Int) : Nat := (keys t).count k

/-- Number of nodes on each root-to-leaf path, a leaf being a node with
no children: the independent path-based reading of tree height. -/
def leafDepths {α : Type} : Tree α → List Nat
  | .nil => []
  | .node _ _ .nil .nil => [1]
  | .node _ _ .nil (.node rk rv rl rr) =>
      (leafDepths (Tree.node rk rv rl rr)).map (· + 1)
  | .node _ _ (.node lk lv la lb) r =>
      ((leafDepths (Tree.node lk lv la lb)) ++ (leafDepths r)).map (· + 1)

/-- The naive balance definition, written from the spec's words: every
node's left and right subtree heights, computed by `height`, differ by at
most 1; an absent subtree is balanced with height 0. -/
def balancedNaive {α : Type} : Tree α → Bool
  | .nil => true
  | .node _ _ l r =>
    decide (((height l : Int) - (height r : Int)).natAbs ≤ 1)
      && balancedNaive l && balancedNaive r

/-- Insert a list of key-value pairs in order, starting from `t`. -/
def insertList {α : Type} (t : Tree α) (ps : List (Int × α)) : Tree α :=
  ps.foldl (fun acc p => insert acc p.1 p.2) t

end Tree

/-- Value associated to `q` by the latest pair of the list carrying key
`q`, or `none` when no pair carries it: the reference semantics of a
sequence of insertions. -/
def lastVal {α : Type} : List (Int × α) → Int → Option α
  | [], _ => none
  | p :: rest, q =>
    match lastVal rest q with
    | some w => some w
    | none => if q = p.1 then some p.2 else none

/-- One mutating operation of the public API. -/
inductive Op (α : Type) where
  | ins (k : Int) (v : α) : Op α
  | del (k : Int) : Op α

/-- Apply one operation to the tree root. -/
def applyOp {α : Type} (t : Tree α) : Op α → Tree α
  | .ins k v => t.insert k v
  | .del k => (t.delTree k).1

/-- Apply a sequence of operations from left to right. -/
def applyOps {α : Type} (t : Tree α) (ops : List (Op α)) : Tree α :=
  ops.foldl applyOp t

end BSTSpec

namespace BSTSpec
namespace Tree

theorem delTree_lt {α : Type} {ck target : Int} (cv : α) (l r : Tree α)
    (h : target < ck) :
    delTree (Tree.node ck cv l r) target
      = (Tree.node ck cv (delTree l target).1 r, (delTree l target).2) := by
  rw [delTree.eq_def]
  simp [h]

theorem delTree_gt {α : Type} {ck target : Int} (cv : α) (l r : Tree α)
    (h : ck < target) :
    delTree (Tree.node ck cv l r) target
      = (Tree.node ck cv l (delTree r target).1, (delTree r target).2) := by
  have h1 : ¬ target < ck := by omega
  rw [delTree.eq_def]
  simp [h1, h]

theorem delTree_eq_nilL {α : Type} {ck : Int} (cv : α) (r : Tree α) :
    delTree (Tree.node ck cv Tree.nil r) ck = (r, true) := by
  rw [delTree.eq_def]
  simp

theorem delTree_eq_nilR {α : Type} {ck lk : Int} (cv lv : α) (la lb : Tree α) :
    delTree (Tree.node ck cv (Tree.node lk lv la lb) Tree.nil) ck
      = (Tree.node lk lv la lb, true) := by
  rw [delTree.eq_def]
  simp

theorem delTree_eq_two {α : Type} {ck rk lk : Int} (cv lv rv : α)
    (la lb rl rr : Tree α) :
    delTree (Tree.node ck cv (Tree.node lk lv la lb) (Tree.node rk rv rl rr)) ck
      = (Tree.node (leftmostFrom rk rv rl).1 (leftmostFrom rk rv rl).2
          (Tree.node lk lv la lb)
          (delTree (Tree.node rk rv rl rr) (leftmostFrom rk rv rl).1).1, true) := by
  simp [delTree]

theorem allB_iff_keys {α : Type} (p : Int → Bool) (t : Tree α) :
    allB p t = true ↔ ∀ x ∈ keys t, p x = true := by
  induction t with
  | nil => simp [allB, keys]
  | node k v l r ihl ihr =>
    simp only [allB, keys, Bool.and_eq_true, ihl, ihr, List.mem_append,
      List.mem_cons]
    constructor
    · rintro ⟨⟨hk, hl⟩, hr⟩ x (hx | hx | hx)
      · exact hl x hx
      · exact hx ▸ hk
      · exact hr x hx
    · intro h
      exact ⟨⟨h k (Or.inr (Or.inl rfl)), fun x hx => h x (Or.inl hx)⟩,
        fun x hx => h x (Or.inr (Or.inr hx))⟩

theorem allB_imp {α : Type} {p q : Int → Bool} {t : Tree α}
    (hpq : ∀ x, p x = true → q x = true) (h : allB p t = true) :
    allB q t = true := by
  rw [allB_iff_keys] at *
  exact fun x hx => hpq x (h x hx)

theorem isBST_node_iff {α : Type} {k : Int} {v : α} {l r : Tree α} :
    isBST (Tree.node k v l r) = true
      ↔ allB (fun x => decide (x < k)) l = true
        ∧ allB (fun x => decide (k < x)) r = true
        ∧ isBST l = true ∧ isBST r = true := by
  simp only [isBST, Bool.and_eq_true]
  tauto

theorem insert_eq_key {α : Type} {k ck : Int} (cv v : α) (l r : Tree α)
    (h : k = ck) :
    insert (Tree.node ck cv l r) k v = Tree.node ck v l r := by
  simp [insert, h]

theorem insert_lt {α : Type} {k ck : Int} (cv v : α) (l r : Tree α)
    (h : k < ck) :
    insert (Tree.node ck cv l r) k v = Tree.node ck cv (insert l k v) r := by
  have h1 : k ≠ ck := by omega
  simp [insert, h1, h]

theorem insert_gt {α : Type} {k ck : Int} (cv v : α) (l r : Tree α)
    (h : ck < k) :
    insert (Tree.node ck cv l r) k v = Tree.node ck cv l (insert r k v) := by
  have h1 : k ≠ ck := by omega
  have h2 : ¬ k < ck := by omega
  simp [insert, h1, h2]

theorem search_insert_self {α : Type} (t : Tree α) (k : Int) (v : α) :
    search (insert t k v) k = some v := by
  induction t with
  | nil => simp [insert, search]
  | node ck cv l r ihl ihr =>
    rcases lt_trichotomy k ck with h | h | h
    · rw [insert_lt cv v l r h]
      have h1 : k ≠ ck := by omega
      simp [search, h1, h, ihl]
    · rw [insert_eq_key cv v l r h]
      simp [search, h]
    · rw [insert_gt cv v l r h]
      have h1 : k ≠ ck := by omega
      have h2 : ¬ k < ck := by omega
      simp [search, h1, h2, ihr]

theorem search_insert_ne {α : Type} (t : Tree α) {k q : Int} (v : α)
    (hne : q ≠ k) : search (insert t k v) q = search t q := by
  induction t with
  | nil => simp [insert, search, hne]
  | node ck cv l r ihl ihr =>
    rcases lt_trichotomy k ck with h | h | h
    · rw [insert_lt cv v l r h]
      by_cases hq : q = ck
      · simp [search, hq]
      · by_cases hq2 : q < ck
        · simp [search, hq, hq2, ihl]
        · simp [search, hq, hq2]
    · subst h
      rw [insert_eq_key cv v l r rfl]
      simp [search, hne]
    · rw [insert_gt cv v l r h]
      by_cases hq : q = ck
      · simp [search, hq]
      · by_cases hq2 : q < ck
        · simp [search, hq, hq2]
        · simp [search, hq, hq2, ihr]

theorem mem_keys_insert {α : Type} (t : Tree α) (k : Int) (v : α) (x : Int) :
    x ∈ keys (insert t k v) ↔ x = k ∨ x ∈ keys t := by
  induction t with
  | nil => simp [insert, keys]
  | node ck cv l r ihl ihr =>
    rcases lt_trichotomy k ck with h | h | h
    · rw [insert_lt cv v l r h]
      simp only [keys, List.mem_append, List.mem_cons, ihl]
      tauto
    · subst h
      rw [insert_eq_key cv v l r rfl]
      simp only [keys, List.mem_append, List.mem_cons]
      constructor
      · tauto
      · rintro ((h | h) | h) <;> tauto
    · rw [insert_gt cv v l r h]
      simp only [keys, List.mem_append, List.mem_cons, ihr]
      tauto

theorem insert_allB {α : Type} {p : Int → Bool} {t : Tree α} {k : Int} (v : α)
    (ht : allB p t = true) (hk : p k = true) :
    allB p (insert t k v) = true := by
  rw [allB_iff_keys] at *
  intro x hx
  rcases (mem_keys_insert t k v x).1 hx with h | h
  · exact h ▸ hk
  · exact ht x h

theorem insert_isBST {α : Type} {t : Tree α} (k : Int) (v : α)
    (ht : isBST t = true) : isBST (insert t k v) = true := by
  induction t with
  | nil => simp [insert, isBST, allB]
  | node ck cv l r ihl ihr =>
    rw [isBST_node_iff] at ht
    obtain ⟨hl, hr, hbl, hbr⟩ := ht
    rcases lt_trichotomy k ck with h | h | h
    · rw [insert_lt cv v l r h, isBST_node_iff]
      exact ⟨insert_allB v hl (by simp [h]), hr, ihl hbl, hbr⟩
    · rw [insert_eq_key cv v l r h, isBST_node_iff]
      exact ⟨hl, hr, hbl, hbr⟩
    · rw [insert_gt cv v l r h, isBST_node_iff]
      exact ⟨hl, insert_allB v hr (by simp [h]), hbl, ihr hbr⟩

theorem leftmostFrom_mem {α : Type} (t : Tree α) (k : Int) (v : α) :
    (leftmostFrom k v t).1 = k ∨ (leftmostFrom k v t).1 ∈ keys t := by
  induction t generalizing k v with
  | nil => simp [leftmostFrom]
  | node ck cv l r ihl _ =>
    right
    rw [leftmostFrom]
    rcases ihl ck cv with h | h
    · simp [keys, h]
    · simp only [keys, List.mem_append, List.mem_cons]
      tauto

theorem leftmostFrom_mem_node {α : Type} (rk : Int) (rv : α) (rl rr : Tree α) :
    (leftmostFrom rk rv rl).1 ∈ keys (Tree.node rk rv rl rr) := by
  rcases leftmostFrom_mem rl rk rv with h | h <;>
    simp only [keys, List.mem_append, List.mem_cons] <;> tauto

theorem search_eq_none_of_lt {α : Type} {t : Tree α} {q : Int}
    (h : allB (fun x => decide (x < q)) t = true) : search t q = none := by
  induction t with
  | nil => rfl
  | node ck cv l r _ ihr =>
    simp only [allB, Bool.and_eq_true] at h
    have hck : ck < q := by simpa using h.1.1
    have h1 : q ≠ ck := by omega
    have h2 : ¬ q < ck := by omega
    simp [search, h1, h2, ihr h.2]

theorem search_eq_none_of_gt {α : Type} {t : Tree α} {q : Int}
    (h : allB (fun x => decide (q < x)) t = true) : search t q = none := by
  induction t with
  | nil => rfl
  | node ck cv l r ihl _ =>
    simp only [allB, Bool.and_eq_true] at h
    have hck : q < ck := by simpa using h.1.1
    have h1 : q ≠ ck := by omega
    simp [search, h1, hck, ihl h.1.2]

theorem mem_of_search_eq_some {α : Type} {t : Tree α} {q : Int} {v : α}
    (h : search t q = some v) : q ∈ keys t := by
  induction t with
  | nil => simp [search] at h
  | node ck cv l r ihl ihr =>
    simp only [search] at h
    by_cases h1 : q = ck
    · simp [keys, h1]
    · rw [if_neg h1] at h
      by_cases h2 : q < ck
      · rw [if_pos h2] at h
        simp only [keys, List.mem_append, List.mem_cons]
        exact Or.inl (ihl h)
      · rw [if_neg h2] at h
        simp only [keys, List.mem_append, List.mem_cons]
        exact Or.inr (Or.inr (ihr h))

theorem search_eq_none_of_not_mem {α : Type} {t : Tree α} {q : Int}
    (h : q ∉ keys t) : search t q = none := by
  cases hs : search t q with
  | none => rfl
  | some v => exact absurd (mem_of_search_eq_some hs) h

theorem delTree_of_search_none {α : Type} {t : Tree α} {k : Int}
    (h : search t k = none) : delTree t k = (t, false) := by
  induction t with
  | nil => rfl
  | node ck cv l r ihl ihr =>
    simp only [search] at h
    by_cases h1 : k = ck
    · simp [h1] at h
    · rw [if_neg h1] at h
      by_cases h2 : k < ck
      · rw [if_pos h2] at h
        rw [delTree_lt cv l r h2, ihl h]
      · rw [if_neg h2] at h
        have h3 : ck < k := by omega
        rw [delTree_gt cv l r h3, ihr h]

theorem delTree_flag {α : Type} {t : Tree α} (hb : isBST t = true) (k : Int) :
    (delTree t k).2 = true ↔ k ∈ keys t := by
  induction t with
  | nil => simp [delTree.eq_def, keys]
  | node ck cv l r ihl ihr =>
    rw [isBST_node_iff] at hb
    obtain ⟨hl, hr, hbl, hbr⟩ := hb
    rcases lt_trichotomy k ck with h | h | h
    · rw [delTree_lt cv l r h]
      have hnr : k ∉ keys r := by
        intro hm
        have := (allB_iff_keys _ r).1 hr k hm
        simp only [decide_eq_true_eq] at this
        omega
      have hne : ¬ k = ck := by omega
      simp only [keys, List.mem_append, List.mem_cons]
      rw [ihl hbl]
      tauto
    · subst h
      cases l with
      | nil =>
        rw [delTree_eq_nilL]
        simp [keys]
      | node lk lv la lb =>
        cases r with
        | nil =>
          rw [delTree_eq_nilR]
          simp [keys]
        | node rk rv rl rr =>
          rw [delTree_eq_two]
          simp [keys]
    · rw [delTree_gt cv l r h]
      have hnl : k ∉ keys l := by
        intro hm
        have := (allB_iff_keys _ l).1 hl k hm
        simp only [decide_eq_true_eq] at this
        omega
      have hne : ¬ k = ck := by omega
      simp only [keys, List.mem_append, List.mem_cons]
      rw [ihr hbr]
      tauto

theorem leftmostFrom_min {α : Type} (rl : Tree α) (rk : Int) (rv : α)
    (rr : Tree α) (hb : isBST (Tree.node rk rv rl rr) = true) :
    ∀ x ∈ keys (Tree.node rk rv rl rr), x ≠ (leftmostFrom rk rv rl).1 →
      (leftmostFrom rk rv rl).1 < x := by
  induction rl generalizing rk rv rr with
  | nil =>
    intro x hx hne
    rw [isBST_node_iff] at hb
    obtain ⟨_, hr, _, _⟩ := hb
    simp only [leftmostFrom] at hne ⊢
    simp only [keys, List.nil_append, List.mem_cons] at hx
    rcases hx with h | h
    · exact absurd h hne
    · have := (allB_iff_keys _ rr).1 hr x h
      simpa using this
  | node lk lv ll lr ihl =>
    intro x hx hne
    rw [isBST_node_iff] at hb
    obtain ⟨hl, hr, hbl, hbr⟩ := hb
    rw [leftmostFrom] at hne ⊢
    have hmem : (leftmostFrom lk lv ll).1 ∈ keys (Tree.node lk lv ll lr) :=
      leftmostFrom_mem_node lk lv ll lr
    have hsk : (leftmostFrom lk lv ll).1 < rk := by
      have := (allB_iff_keys _ (Tree.node lk lv ll lr)).1 hl _ hmem
      simpa using this
    simp only [keys, List.mem_append, List.mem_cons] at hx
    rcases hx with h | h | h
    · exact ihl lk lv lr hbl x (by simpa [keys] using h) hne
    · omega
    · have := (allB_iff_keys _ rr).1 hr x h
      simp only [decide_eq_true_eq] at this
      omega

theorem delTwoChild_leftmost {α : Type} (rl : Tree α) (rk : Int) (rv : α)
    (rr : Tree α) (hb : isBST (Tree.node rk rv rl rr) = true) :
    delTwoChild (Tree.node rk rv rl rr) (leftmostFrom rk rv rl).1 = false := by
  induction rl generalizing rk rv rr with
  | nil =>
    rw [delTwoChild.eq_def]
    simp [leftmostFrom]
  | node lk lv ll lr ihl =>
    rw [isBST_node_iff] at hb
    obtain ⟨hl, _, hbl, _⟩ := hb
    have hmem : (leftmostFrom lk lv ll).1 ∈ keys (Tree.node lk lv ll lr) :=
      leftmostFrom_mem_node lk lv ll lr
    have hsk : (leftmostFrom lk lv ll).1 < rk := by
      have := (allB_iff_keys _ (Tree.node lk lv ll lr)).1 hl _ hmem
      simpa using this
    rw [leftmostFrom, delTwoChild.eq_def]
    simp only [hsk, if_pos]
    exact ihl lk lv lr hbl

theorem search_leftmost {α : Type} (rl : Tree α) (rk : Int) (rv : α)
    (rr : Tree α) (hb : isBST (Tree.node rk rv rl rr) = true) :
    search (Tree.node rk rv rl rr) (leftmostFrom rk rv rl).1
      = some (leftmostFrom rk rv rl).2 := by
  induction rl generalizing rk rv rr with
  | nil => simp [leftmostFrom, search]
  | node lk lv ll lr ihl =>
    rw [isBST_node_iff] at hb
    obtain ⟨hl, _, hbl, _⟩ := hb
    have hmem : (leftmostFrom lk lv ll).1 ∈ keys (Tree.node lk lv ll lr) :=
      leftmostFrom_mem_node lk lv ll lr
    have hsk : (leftmostFrom lk lv ll).1 < rk := by
      have := (allB_iff_keys _ (Tree.node lk lv ll lr)).1 hl _ hmem
      simpa using this
    have hne : (leftmostFrom lk lv ll).1 ≠ rk := by omega
    rw [leftmostFrom, search]
    simp only [hne, if_false, hsk, if_pos, if_neg]
    exact ihl lk lv lr hbl

theorem mem_keys_node {α : Type} {q k : Int} {v : α} {l r : Tree α} :
    q ∈ keys (Tree.node k v l r) ↔ q ∈ keys l ∨ q = k ∨ q ∈ keys r := by
  rw [keys]
  simp

theorem allB_node_iff {α : Type} {p : Int → Bool} {k : Int} {v : α}
    {l r : Tree α} :
    allB p (Tree.node k v l r) = true
      ↔ p k = true ∧ allB p l = true ∧ allB p r = true := by
  rw [allB]
  simp only [Bool.and_eq_true]
  tauto

theorem mem_keys_delTree {α : Type} (t : Tree α) (q : Int) :
    ∀ k, isBST t = true →
      (q ∈ keys (delTree t k).1 ↔ (q ∈ keys t ∧ q ≠ k)) := by
  induction t with
  | nil => intro k _; simp [delTree.eq_def, keys]
  | node ck cv l r ihl ihr =>
    intro k hb
    rw [isBST_node_iff] at hb
    obtain ⟨hl, hr, hbl, hbr⟩ := hb
    have hkl : ∀ x ∈ keys l, x < ck := by
      intro x hx
      have := (allB_iff_keys _ l).1 hl x hx
      simpa using this
    have hkr : ∀ x ∈ keys r, ck < x := by
      intro x hx
      have := (allB_iff_keys _ r).1 hr x hx
      simpa using this
    rcases lt_trichotomy k ck with h | h | h
    · rw [delTree_lt cv l r h]
      simp only [keys, List.mem_append, List.mem_cons]
      rw [ihl k hbl]
      constructor
      · rintro (⟨h1, h2⟩ | h1 | h1)
        · exact ⟨Or.inl h1, h2⟩
        · exact ⟨Or.inr (Or.inl h1), by omega⟩
        · exact ⟨Or.inr (Or.inr h1), by have := hkr q h1; omega⟩
      · rintro ⟨h1 | h1 | h1, h2⟩
        · exact Or.inl ⟨h1, h2⟩
        · exact Or.inr (Or.inl h1)
        · exact Or.inr (Or.inr h1)
    · subst h
      cases l with
      | nil =>
        rw [delTree_eq_nilL]
        simp only [keys, List.nil_append, List.mem_cons]
        constructor
        · intro h1
          have := hkr q h1
          exact ⟨Or.inr h1, by omega⟩
        · rintro ⟨h1 | h1, h2⟩
          · omega
          · exact h1
      | node lk lv la lb =>
        cases r with
        | nil =>
          rw [delTree_eq_nilR]
          conv_rhs => rw [mem_keys_node]
          constructor
          · intro h1
            have := hkl q h1
            exact ⟨Or.inl h1, by omega⟩
          · rintro ⟨h1 | h1 | h1, h2⟩
            · exact h1
            · omega
            · simp [keys] at h1
        | node rk rv rl rr =>
          rw [delTree_eq_two]
          have hsmem : (leftmostFrom rk rv rl).1 ∈ keys (Tree.node rk rv rl rr) :=
            leftmostFrom_mem_node rk rv rl rr
          have hsgt : k < (leftmostFrom rk rv rl).1 := hkr _ hsmem
          conv_lhs => rw [mem_keys_node]
          rw [ihr (leftmostFrom rk rv rl).1 hbr]
          conv_rhs => rw [mem_keys_node]
          constructor
          · rintro (h1 | h1 | ⟨h1, h2⟩)
            · have := hkl q h1
              exact ⟨Or.inl h1, by omega⟩
            · exact ⟨Or.inr (Or.inr (h1 ▸ hsmem)), by omega⟩
            · exact ⟨Or.inr (Or.inr h1), by have := hkr q h1; omega⟩
          · rintro ⟨h1 | h1 | h1, h2⟩
            · exact Or.inl h1
            · omega
            · by_cases hq : q = (leftmostFrom rk rv rl).1
              · exact Or.inr (Or.inl hq)
              · exact Or.inr (Or.inr ⟨h1, hq⟩)
    · rw [delTree_gt cv l r h]
      simp only [keys, List.mem_append, List.mem_cons]
      rw [ihr k hbr]
      constructor
      · rintro (h1 | h1 | ⟨h1, h2⟩)
        · exact ⟨Or.inl h1, by have := hkl q h1; omega⟩
        · exact ⟨Or.inr (Or.inl h1), by omega⟩
        · exact ⟨Or.inr (Or.inr h1), h2⟩
      · rintro ⟨h1 | h1 | h1, h2⟩
        · exact Or.inl h1
        · exact Or.inr (Or.inl h1)
        · exact Or.inr (Or.inr ⟨h1, h2⟩)

theorem delTree_allB {α : Type} {p : Int → Bool} (t : Tree α) :
    ∀ k, allB p t = true → allB p (delTree t k).1 = true := by
  induction t with
  | nil => intro k _; simp [delTree.eq_def, allB]
  | node ck cv l r ihl ihr =>
    intro k ht
    simp only [allB, Bool.and_eq_true] at ht
    obtain ⟨⟨hck, hl⟩, hr⟩ := ht
    rcases lt_trichotomy k ck with h | h | h
    · rw [delTree_lt cv l r h]
      simp only [allB, Bool.and_eq_true]
      exact ⟨⟨hck, ihl k hl⟩, hr⟩
    · subst h
      cases l with
      | nil => rw [delTree_eq_nilL]; exact hr
      | node lk lv la lb =>
        cases r with
        | nil => rw [delTree_eq_nilR]; exact hl
        | node rk rv rl rr =>
          rw [delTree_eq_two, allB_node_iff]
          have hs : p (leftmostFrom rk rv rl).1 = true :=
            (allB_iff_keys p _).1 hr _ (leftmostFrom_mem_node rk rv rl rr)
          exact ⟨hs, hl, ihr _ hr⟩
    · rw [delTree_gt cv l r h]
      simp only [allB, Bool.and_eq_true]
      exact ⟨⟨hck, hl⟩, ihr k hr⟩

theorem delTree_isBST {α : Type} (t : Tree α) :
    ∀ k, isBST t = true → isBST (delTree t k).1 = true := by
  induction t with
  | nil => intro k _; simp [delTree.eq_def, isBST]
  | node ck cv l r ihl ihr =>
    intro k hb
    rw [isBST_node_iff] at hb
    obtain ⟨hl, hr, hbl, hbr⟩ := hb
    rcases lt_trichotomy k ck with h | h | h
    · rw [delTree_lt cv l r h, isBST_node_iff]
      exact ⟨delTree_allB l k hl, hr, ihl k hbl, hbr⟩
    · subst h
      cases l with
      | nil => rw [delTree_eq_nilL]; exact hbr
      | node lk lv la lb =>
        cases r with
        | nil => rw [delTree_eq_nilR]; exact hbl
        | node rk rv rl rr =>
          rw [delTree_eq_two, isBST_node_iff]
          have hsmem : (leftmostFrom rk rv rl).1 ∈ keys (Tree.node rk rv rl rr) :=
            leftmostFrom_mem_node rk rv rl rr
          have hsgt : k < (leftmostFrom rk rv rl).1 := by
            have := (allB_iff_keys _ _).1 hr _ hsmem
            simpa using this
          refine ⟨?_, ?_, hbl, ihr _ hbr⟩
          · refine allB_imp ?_ hl
            intro x hx
            simp only [decide_eq_true_eq] at hx ⊢
            omega
          · rw [allB_iff_keys]
            intro x hx
            rw [mem_keys_delTree _ x _ hbr] at hx
            simp only [decide_eq_true_eq]
            exact leftmostFrom_min rl rk rv rr hbr x hx.1 hx.2
    · rw [delTree_gt cv l r h, isBST_node_iff]
      exact ⟨hl, delTree_allB r k hr, hbl, ihr k hbr⟩

theorem search_delTree {α : Type} (t : Tree α) :
    ∀ k q, isBST t = true →
      search (delTree t k).1 q = if q = k then none else search t q := by
  induction t with
  | nil =>
    intro k q _
    rw [delTree.eq_def]
    simp [search]
  | node ck cv l r ihl ihr =>
    intro k q hb
    rw [isBST_node_iff] at hb
    obtain ⟨hl, hr, hbl, hbr⟩ := hb
    rcases lt_trichotomy k ck with h | h | h
    · rw [delTree_lt cv l r h]
      by_cases hqk : q = k
      · have h1 : ¬ k = ck := by omega
        simp [search, hqk, h1, h, ihl k k hbl]
      · by_cases hq : q = ck
        · have h1 : ¬ ck = k := by omega
          simp [search, hq, hqk, h1]
        · by_cases hq2 : q < ck
          · simp [search, hq, hq2, hqk, ihl k q hbl]
          · simp [search, hq, hq2, hqk]
    · subst h
      cases l with
      | nil =>
        rw [delTree_eq_nilL]
        by_cases hqk : q = k
        · rw [hqk, search_eq_none_of_gt hr]
          simp
        · by_cases hq2 : q < k
          · have hrnone : search r q = none := by
              refine search_eq_none_of_gt (allB_imp ?_ hr)
              intro x hx
              simp only [decide_eq_true_eq] at hx ⊢
              omega
            simp [search, hqk, hq2, hrnone]
          · simp [search, hqk, hq2]
      | node lk lv la lb =>
        cases r with
        | nil =>
          rw [delTree_eq_nilR]
          by_cases hqk : q = k
          · rw [hqk, search_eq_none_of_lt hl]
            simp
          · by_cases hq2 : q < k
            · simp [search, hqk, hq2]
            · have hlnone : search (Tree.node lk lv la lb) q = none := by
                refine search_eq_none_of_lt (allB_imp ?_ hl)
                intro x hx
                simp only [decide_eq_true_eq] at hx ⊢
                omega
              rw [hlnone]
              simp [search, hqk, hq2]
        | node rk rv rl rr =>
          rw [delTree_eq_two]
          have hsmem := leftmostFrom_mem_node rk rv rl rr
          have hsgt : k < (leftmostFrom rk rv rl).1 := by
            have := (allB_iff_keys _ _).1 hr _ hsmem
            simpa using this
          have hmin := leftmostFrom_min rl rk rv rr hbr
          by_cases hqs : q = (leftmostFrom rk rv rl).1
          · have h1 : ¬ (leftmostFrom rk rv rl).1 = k := by omega
            have h2 : ¬ (leftmostFrom rk rv rl).1 < k := by omega
            have hRs := search_leftmost rl rk rv rr hbr
            rw [hqs, if_neg h1]
            rw [search, if_pos rfl]
            rw [search, if_neg h1, if_neg h2, hRs]
          · by_cases hqk : q = k
            · have h2 : k < (leftmostFrom rk rv rl).1 := hsgt
              have h3 : ¬ k = (leftmostFrom rk rv rl).1 := by
                intro hc
                exact hqs (hqk.trans hc)
              have hLnone : search (Tree.node lk lv la lb) k = none :=
                search_eq_none_of_lt hl
              rw [hqk, search, if_neg h3, if_pos h2, hLnone]
              simp
            · by_cases hq2 : q < (leftmostFrom rk rv rl).1
              · by_cases hq3 : q < k
                · simp [search, hqs, hqk, hq2, hq3]
                · have hLnone : search (Tree.node lk lv la lb) q = none := by
                    refine search_eq_none_of_lt (allB_imp ?_ hl)
                    intro x hx
                    simp only [decide_eq_true_eq] at hx ⊢
                    omega
                  have hRnone : search (Tree.node rk rv rl rr) q = none := by
                    refine search_eq_none_of_gt ?_
                    rw [allB_iff_keys]
                    intro x hx
                    simp only [decide_eq_true_eq]
                    by_cases hxs : x = (leftmostFrom rk rv rl).1
                    · omega
                    · have := hmin x hx hxs
                      omega
                  rw [search, if_neg hqs, if_pos hq2, hLnone]
                  rw [if_neg hqk, search, if_neg hqk, if_neg hq3, hRnone]
              · have hqk2 : ¬ q < k := by omega
                simp [search, hqs, hqk, hq2, hqk2,
                  ihr (leftmostFrom rk rv rl).1 q hbr]
    · rw [delTree_gt cv l r h]
      by_cases hqk : q = k
      · have h1 : ¬ k = ck := by omega
        have h2 : ¬ k < ck := by omega
        simp [search, hqk, h1, h2, ihr k k hbr]
      · by_cases hq : q = ck
        · have h1 : ¬ ck = k := by omega
          simp [search, hq, hqk, h1]
        · by_cases hq2 : q < ck
          · simp [search, hq, hq2, hqk]
          · simp [search, hq, hq2, hqk, ihr k q hbr]

theorem tsize_delTree {α : Type} (t : Tree α) :
    ∀ k, isBST t = true → k ∈ keys t →
      tsize (delTree t k).1 + 1 = tsize t := by
  induction t with
  | nil => intro k _ hk; simp [keys] at hk
  | node ck cv l r ihl ihr =>
    intro k hb hk
    rw [isBST_node_iff] at hb
    obtain ⟨hl, hr, hbl, hbr⟩ := hb
    have hkl : ∀ x ∈ keys l, x < ck := by
      intro x hx
      have := (allB_iff_keys _ l).1 hl x hx
      simpa using this
    have hkr : ∀ x ∈ keys r, ck < x := by
      intro x hx
      have := (allB_iff_keys _ r).1 hr x hx
      simpa using this
    rw [mem_keys_node] at hk
    rcases lt_trichotomy k ck with h | h | h
    · rw [delTree_lt cv l r h]
      have hkmem : k ∈ keys l := by
        rcases hk with h1 | h1 | h1
        · exact h1
        · omega
        · have := hkr k h1
          omega
      have := ihl k hbl hkmem
      simp only [tsize]
      omega
    · subst h
      cases l with
      | nil =>
        rw [delTree_eq_nilL]
        simp [tsize]
        omega
      | node lk lv la lb =>
        cases r with
        | nil =>
          rw [delTree_eq_nilR]
          simp [tsize]
          omega
        | node rk rv rl rr =>
          rw [delTree_eq_two]
          have hsm := leftmostFrom_mem_node rk rv rl rr
          have hsz := ihr (leftmostFrom rk rv rl).1 hbr hsm
          simp only [tsize] at hsz ⊢
          omega
    · rw [delTree_gt cv l r h]
      have hkmem : k ∈ keys r := by
        rcases hk with h1 | h1 | h1
        · have := hkl k h1
          omega
        · omega
        · exact h1
      have := ihr k hbr hkmem
      simp only [tsize]
      omega

theorem isBST_pairwise {α : Type} (t : Tree α) :
    isBST t = true → List.Pairwise (· < ·) (keys t) := by
  induction t with
  | nil => intro _; simp [keys]
  | node k v l r ihl ihr =>
    intro hb
    rw [isBST_node_iff] at hb
    obtain ⟨hl, hr, hbl, hbr⟩ := hb
    rw [keys, List.pairwise_append]
    refine ⟨ihl hbl, ?_, ?_⟩
    · rw [List.pairwise_cons]
      refine ⟨?_, ihr hbr⟩
      intro x hx
      have := (allB_iff_keys _ r).1 hr x hx
      simpa using this
    · intro x hx y hy
      have hxk : x < k := by
        have := (allB_iff_keys _ l).1 hl x hx
        simpa using this
      rcases List.mem_cons.mp hy with rfl | hy2
      · exact hxk
      · have : k < y := by
          have := (allB_iff_keys _ r).1 hr y hy2
          simpa using this
        omega

theorem insert_insert {α : Type} (t : Tree α) (k : Int) (v1 v2 : α) :
    insert (insert t k v1) k v2 = insert t k v2 := by
  induction t with
  | nil => simp [insert]
  | node ck cv l r ihl ihr =>
    rcases lt_trichotomy k ck with h | h | h
    · rw [insert_lt cv v1 l r h, insert_lt cv v2 (insert l k v1) r h, ihl,
        insert_lt cv v2 l r h]
    · rw [insert_eq_key cv v1 l r h, insert_eq_key v1 v2 l r h,
        insert_eq_key cv v2 l r h]
    · rw [insert_gt cv v1 l r h, insert_gt cv v2 l (insert r k v1) h, ihr,
        insert_gt cv v2 l r h]

theorem shape_insert_value {α : Type} (t : Tree α) (k : Int) (v1 v2 : α) :
    shape (insert t k v1) = shape (insert t k v2) := by
  induction t with
  | nil => rfl
  | node ck cv l r ihl ihr =>
    rcases lt_trichotomy k ck with h | h | h
    · rw [insert_lt cv v1 l r h, insert_lt cv v2 l r h]
      simp [shape, ihl]
    · rw [insert_eq_key cv v1 l r h, insert_eq_key cv v2 l r h]
      simp [shape]
    · rw [insert_gt cv v1 l r h, insert_gt cv v2 l r h]
      simp [shape, ihr]

theorem tsize_insert_value {α : Type} (t : Tree α) (k : Int) (v1 v2 : α) :
    tsize (insert t k v1) = tsize (insert t k v2) := by
  induction t with
  | nil => rfl
  | node ck cv l r ihl ihr =>
    rcases lt_trichotomy k ck with h | h | h
    · rw [insert_lt cv v1 l r h, insert_lt cv v2 l r h]
      simp [tsize, ihl]
    · rw [insert_eq_key cv v1 l r h, insert_eq_key cv v2 l r h]
      simp [tsize]
    · rw [insert_gt cv v1 l r h, insert_gt cv v2 l r h]
      simp [tsize, ihr]

theorem check_fst {α : Type} (t : Tree α) : (check t).1 = height t := by
  induction t with
  | nil => rfl
  | node k v l r ihl ihr => simp [check, height, ihl, ihr]

theorem check_snd {α : Type} (t : Tree α) : (check t).2 = balancedNaive t := by
  induction t with
  | nil => rfl
  | node k v l r ihl ihr =>
    simp [check, balancedNaive, ihl, ihr, check_fst, Bool.and_comm,
      Bool.and_left_comm, Bool.and_assoc]

theorem foldr_max_append (A B : List Nat) :
    (A ++ B).foldr max 0 = max (A.foldr max 0) (B.foldr max 0) := by
  induction A with
  | nil => simp
  | cons a A ih => simp [ih, Nat.max_assoc]

theorem foldr_max_map_succ (A : List Nat) (h : A ≠ []) :
    (A.map (· + 1)).foldr max 0 = (A.foldr max 0) + 1 := by
  induction A with
  | nil => exact absurd rfl h
  | cons a A ih =>
    cases A with
    | nil => simp
    | cons b B =>
      have hne : b :: B ≠ [] := by simp
      simp only [List.map_cons, List.foldr_cons] at ih ⊢
      rw [ih hne]
      omega

theorem leafDepths_ne_nil {α : Type} (t : Tree α) (h : t ≠ Tree.nil) :
    leafDepths t ≠ [] := by
  induction t with
  | nil => exact absurd rfl h
  | node k v l r ihl ihr =>
    cases l with
    | nil =>
      cases r with
      | nil => simp [leafDepths]
      | node rk rv rl rr =>
        rw [leafDepths]
        simp only [ne_eq, List.map_eq_nil_iff]
        exact ihr (by simp)
    | node lk lv la lb =>
      rw [leafDepths]
      simp only [ne_eq, List.map_eq_nil_iff, List.append_eq_nil, not_and]
      intro hc
      exact absurd hc (ihl (by simp))

theorem height_eq_leafDepths {α : Type} (t : Tree α) :
    height t = (leafDepths t).foldr max 0 := by
  induction t with
  | nil => rfl
  | node k v l r ihl ihr =>
    cases l with
    | nil =>
      cases r with
      | nil => simp [height, leafDepths]
      | node rk rv rl rr =>
        rw [leafDepths,
          foldr_max_map_succ _ (leafDepths_ne_nil _ (by simp)), ← ihr]
        simp only [height]
        omega
    | node lk lv la lb =>
      have hne : leafDepths (Tree.node lk lv la lb) ++ leafDepths r ≠ [] := by
        simp only [ne_eq, List.append_eq_nil, not_and]
        intro hc
        exact absurd hc (leafDepths_ne_nil _ (by simp))
      rw [leafDepths, foldr_max_map_succ _ hne, foldr_max_append, ← ihl, ← ihr]
      simp only [height]
      omega

theorem height_le_tsize {α : Type} (t : Tree α) : height t ≤ tsize t := by
  induction t with
  | nil => simp [height, tsize]
  | node k v l r ihl ihr =>
    simp only [height, tsize]
    omega

theorem tsize_lt_two_pow_height {α : Type} (t : Tree α) :
    tsize t + 1 ≤ 2 ^ height t := by
  induction t with
  | nil => simp [height, tsize]
  | node k v l r ihl ihr =>
    simp only [height, tsize]
    have h1 : 2 ^ height l ≤ 2 ^ max (height l) (height r) :=
      Nat.pow_le_pow_right (by norm_num) (le_max_left _ _)
    have h2 : 2 ^ height r ≤ 2 ^ max (height l) (height r) :=
      Nat.pow_le_pow_right (by norm_num) (le_max_right _ _)
    have h3 : 2 ^ (1 + max (height l) (height r))
        = 2 * 2 ^ max (height l) (height r) := by
      rw [Nat.add_comm, Nat.pow_succ]
      omega
    omega

theorem lastVal_cons_some {α : Type} {p : Int × α} {rest : List (Int × α)}
    {q : Int} {w2 : α} (h : lastVal rest q = some w2) :
    lastVal (p :: rest) q = some w2 := by
  rw [lastVal, h]

theorem lastVal_cons_none {α : Type} {p : Int × α} {rest : List (Int × α)}
    {q : Int} (h : lastVal rest q = none) :
    lastVal (p :: rest) q = if q = p.1 then some p.2 else none := by
  rw [lastVal, h]

theorem search_insertList_none {α : Type} :
    ∀ (ps : List (Int × α)) (t : Tree α) (q : Int), lastVal ps q = none →
      search (insertList t ps) q = search t q := by
  intro ps
  induction ps with
  | nil => intro t q _; rfl
  | cons p rest ih =>
    intro t q h
    rcases hlv : lastVal rest q with _ | w2
    · rw [lastVal_cons_none hlv] at h
      have hq : ¬ q = p.1 := by
        intro hc
        rw [if_pos hc] at h
        exact Option.noConfusion h
      rw [insertList, List.foldl_cons]
      have heq := ih (insert t p.1 p.2) q hlv
      rw [insertList] at heq
      rw [heq, search_insert_ne t p.2 hq]
    · rw [lastVal_cons_some hlv] at h
      exact absurd h (by simp)

theorem search_insertList_some {α : Type} :
    ∀ (ps : List (Int × α)) (t : Tree α) (q : Int) (w : α),
      lastVal ps q = some w → search (insertList t ps) q = some w := by
  intro ps
  induction ps with
  | nil => intro t q w h; simp [lastVal] at h
  | cons p rest ih =>
    intro t q w h
    rcases hlv : lastVal rest q with _ | w2
    · rw [lastVal_cons_none hlv] at h
      by_cases hc : q = p.1
      · rw [if_pos hc] at h
        have hw : p.2 = w := by injection h
        rw [insertList, List.foldl_cons]
        have heq := search_insertList_none rest (insert t p.1 p.2) q hlv
        rw [insertList] at heq
        rw [heq, hc, search_insert_self, hw]
      · rw [if_neg hc] at h
        exact absurd h (by simp)
    · rw [lastVal_cons_some hlv] at h
      have hw : w2 = w := by injection h
      rw [insertList, List.foldl_cons]
      have heq := ih (insert t p.1 p.2) q w2 hlv
      rw [insertList] at heq
      rw [heq, hw]

end Tree
end BSTSpec

namespace BSTSpec

open Tree

/-- C1: every tree obtained from the empty map by any sequence of insert and
delete operations satisfies the BST ordering invariant (`isBST`), its
in-order traversal lists the keys in strictly ascending order, and hence no
two nodes share a key. -/
theorem C1_bst_invariant {α : Type} (ops : List (Op α)) :
    isBST (applyOps Tree.nil ops) = true
      ∧ List.Pairwise (· < ·) (keys (applyOps Tree.nil ops))
      ∧ (keys (applyOps Tree.nil ops)).Nodup := by
  have hb : ∀ (t : Tree α), isBST t = true → isBST (applyOps t ops) = true := by
    induction ops with
    | nil => intro t h; exact h
    | cons op rest ih =>
      intro t h
      rw [applyOps, List.foldl_cons]
      have h1 : isBST (applyOp t op) = true := by
        cases op with
        | ins k v => exact insert_isBST k v h
        | del k => exact delTree_isBST t k h
      have h2 := ih (applyOp t op) h1
      rw [applyOps] at h2
      exact h2
  have h1 := hb Tree.nil rfl
  exact ⟨h1, isBST_pairwise _ h1,
    List.Pairwise.imp (fun hxy => ne_of_lt hxy) (isBST_pairwise _ h1)⟩

/-- C2: deleting a key that is present in a valid BST returns `true`, makes
a subsequent search of that key return `none`, and decreases the number of
reachable nodes by exactly one. -/
theorem C2_delete_present {α : Type} (t : Tree α) (k : Int)
    (hb : isBST t = true) (hk : k ∈ keys t) :
    (delete t k).2 = true
      ∧ search (delete t k).1 k = none
      ∧ tsize (delete t k).1 = tsize t - 1 := by
  have h1 := (delTree_flag hb k).2 hk
  have h2 := search_delTree t k k hb
  have h3 := tsize_delTree t k hb hk
  rw [if_pos rfl] at h2
  rw [delete]
  exact ⟨h1, h2, by omega⟩

/-- C2 witness: on the tree {3, 5, 7}, deleting the present key 3. -/
theorem C2_delete_present_witness :
    isBST (Tree.node 5 (50 : Int) (Tree.node 3 30 Tree.nil Tree.nil)
        (Tree.node 7 70 Tree.nil Tree.nil)) = true
      ∧ (3 : Int) ∈ keys (Tree.node 5 (50 : Int)
          (Tree.node 3 30 Tree.nil Tree.nil)
          (Tree.node 7 70 Tree.nil Tree.nil))
      ∧ ((delete (Tree.node 5 (50 : Int) (Tree.node 3 30 Tree.nil Tree.nil)
            (Tree.node 7 70 Tree.nil Tree.nil)) 3).2 = true
        ∧ search (delete (Tree.node 5 (50 : Int)
            (Tree.node 3 30 Tree.nil Tree.nil)
            (Tree.node 7 70 Tree.nil Tree.nil)) 3).1 3 = none
        ∧ tsize (delete (Tree.node 5 (50 : Int)
            (Tree.node 3 30 Tree.nil Tree.nil)
            (Tree.node 7 70 Tree.nil Tree.nil)) 3).1
          = tsize (Tree.node 5 (50 : Int) (Tree.node 3 30 Tree.nil Tree.nil)
            (Tree.node 7 70 Tree.nil Tree.nil)) - 1) :=
  ⟨by decide, by decide, C2_delete_present _ 3 (by decide) (by decide)⟩

/-- C3: immediately after `insert k v` a search for `k` returns `v`, and a
search in the tree built by any sequence of insertions from the empty map
returns the value of the latest insertion with the searched key, `none`
when the key was never inserted (`lastVal`). -/
theorem C3_insert_search_roundtrip {α : Type} (t : Tree α) (k : Int) (v : α)
    (ps : List (Int × α)) (q : Int) :
    search (insert t k v) k = some v
      ∧ search (insertList Tree.nil ps) q = lastVal ps q := by
  refine ⟨search_insert_self t k v, ?_⟩
  rcases hlv : lastVal ps q with _ | w
  · rw [search_insertList_none ps Tree.nil q hlv]
    rfl
  · exact search_insertList_some ps Tree.nil q w hlv

/-- C4: deleting a key that is absent from a valid BST returns `false` and
leaves the tree itself unchanged, hence the height, the balance check and
every search result are unchanged as well. -/
theorem C4_delete_absent {α : Type} (t : Tree α) (k : Int)
    (_hb : isBST t = true) (hk : k ∉ keys t) :
    delete t k = (t, false)
      ∧ height (delete t k).1 = height t
      ∧ isBalanced (delete t k).1 = isBalanced t
      ∧ (∀ q : Int, search (delete t k).1 q = search t q) := by
  have h := delTree_of_search_none (search_eq_none_of_not_mem hk)
  rw [delete, h]
  exact ⟨rfl, rfl, rfl, fun q => rfl⟩

/-- C4 witness: on the tree {3, 5, 7}, deleting the absent key 4. -/
theorem C4_delete_absent_witness :
    isBST (Tree.node 5 (50 : Int) (Tree.node 3 30 Tree.nil Tree.nil)
        (Tree.node 7 70 Tree.nil Tree.nil)) = true
      ∧ (4 : Int) ∉ keys (Tree.node 5 (50 : Int)
          (Tree.node 3 30 Tree.nil Tree.nil)
          (Tree.node 7 70 Tree.nil Tree.nil))
      ∧ (delete (Tree.node 5 (50 : Int) (Tree.node 3 30 Tree.nil Tree.nil)
            (Tree.node 7 70 Tree.nil Tree.nil)) 4
          = (Tree.node 5 (50 : Int) (Tree.node 3 30 Tree.nil Tree.nil)
            (Tree.node 7 70 Tree.nil Tree.nil), false)
        ∧ height (delete (Tree.node 5 (50 : Int)
            (Tree.node 3 30 Tree.nil Tree.nil)
            (Tree.node 7 70 Tree.nil Tree.nil)) 4).1
          = height (Tree.node 5 (50 : Int) (Tree.node 3 30 Tree.nil Tree.nil)
            (Tree.node 7 70 Tree.nil Tree.nil))
        ∧ isBalanced (delete (Tree.node 5 (50 : Int)
            (Tree.node 3 30 Tree.nil Tree.nil)
            (Tree.node 7 70 Tree.nil Tree.nil)) 4).1
          = isBalanced (Tree.node 5 (50 : Int)
            (Tree.node 3 30 Tree.nil Tree.nil)
            (Tree.node 7 70 Tree.nil Tree.nil))
        ∧ (∀ q : Int, search (delete (Tree.node 5 (50 : Int)
            (Tree.node 3 30 Tree.nil Tree.nil)
            (Tree.node 7 70 Tree.nil Tree.nil)) 4).1 q
          = search (Tree.node 5 (50 : Int)
            (Tree.node 3 30 Tree.nil Tree.nil)
            (Tree.node 7 70 Tree.nil Tree.nil)) q)) :=
  ⟨by decide, by decide, C4_delete_absent _ 4 (by decide) (by decide)⟩

/-- C5: when delete reaches a node holding the target key that has two
children, the result copies the key and value of the in-order successor
(the leftmost node of the right subtree) into that node and recursively
deletes the successor's original key from the right subtree; that recursive
deletion resolves via the leaf or one-child case, never via the
two-children case. -/
theorem C5_two_child_delete {α : Type} (k : Int) (v : α) (lk : Int) (lv : α)
    (la lb : Tree α) (rk : Int) (rv : α) (rl rr : Tree α)
    (hb : isBST (Tree.node k v (Tree.node lk lv la lb)
        (Tree.node rk rv rl rr)) = true) :
    delete (Tree.node k v (Tree.node lk lv la lb)
        (Tree.node rk rv rl rr)) k
      = (Tree.node (leftmostFrom rk rv rl).1 (leftmostFrom rk rv rl).2
          (Tree.node lk lv la lb)
          (delTree (Tree.node rk rv rl rr) (leftmostFrom rk rv rl).1).1, true)
      ∧ delTwoChild (Tree.node rk rv rl rr) (leftmostFrom rk rv rl).1
          = false := by
  have hbr : isBST (Tree.node rk rv rl rr) = true := (isBST_node_iff.1 hb).2.2.2
  constructor
  · rw [delete, delTree_eq_two]
  · exact delTwoChild_leftmost rl rk rv rr hbr

/-- C5 witness: deleting the root 5 of the tree {3, 5, 7}, whose node has
two children; the successor is 7. -/
theorem C5_two_child_delete_witness :
    isBST (Tree.node 5 (50 : Int) (Tree.node 3 30 Tree.nil Tree.nil)
        (Tree.node 7 70 Tree.nil Tree.nil)) = true
      ∧ (delete (Tree.node 5 (50 : Int) (Tree.node 3 30 Tree.nil Tree.nil)
            (Tree.node 7 70 Tree.nil Tree.nil)) 5
          = (Tree.node (leftmostFrom 7 70 Tree.nil).1
              (leftmostFrom 7 (70 : Int) Tree.nil).2
              (Tree.node 3 30 Tree.nil Tree.nil)
              (delTree (Tree.node 7 (70 : Int) Tree.nil Tree.nil)
                (leftmostFrom 7 (70 : Int) Tree.nil).1).1, true)
        ∧ delTwoChild (Tree.node 7 (70 : Int) Tree.nil Tree.nil)
              (leftmostFrom 7 (70 : Int) Tree.nil).1 = false) :=
  ⟨by decide, C5_two_child_delete 5 50 3 30 Tree.nil Tree.nil 7 70
    Tree.nil Tree.nil (by decide)⟩

/-- C6: inserting the same key twice into a valid BST leaves exactly one
node with that key, holding the second value, and the second insert makes
no structural change: shape and node count are those after the first
insert. -/
theorem C6_insert_overwrite {α : Type} (t : Tree α) (k : Int) (v1 v2 : α)
    (hb : isBST t = true) :
    countKey (insert (insert t k v1) k v2) k = 1
      ∧ search (insert (insert t k v1) k v2) k = some v2
      ∧ shape (insert (insert t k v1) k v2) = shape (insert t k v1)
      ∧ tsize (insert (insert t k v1) k v2) = tsize (insert t k v1) := by
  rw [insert_insert]
  refine ⟨?_, search_insert_self t k v2, shape_insert_value t k v2 v1,
    tsize_insert_value t k v2 v1⟩
  have hb2 : isBST (insert t k v2) = true := insert_isBST k v2 hb
  have hnd : (keys (insert t k v2)).Nodup :=
    List.Pairwise.imp (fun hxy => ne_of_lt hxy) (isBST_pairwise _ hb2)
  have hm : k ∈ keys (insert t k v2) := (mem_keys_insert t k v2 k).2 (Or.inl rfl)
  rw [countKey]
  exact List.count_eq_one_of_mem hnd hm

/-- C6 witness: inserting key 4 twice into the tree {3, 5, 7}. -/
theorem C6_insert_overwrite_witness :
    isBST (Tree.node 5 (50 : Int) (Tree.node 3 30 Tree.nil Tree.nil)
        (Tree.node 7 70 Tree.nil Tree.nil)) = true
      ∧ (countKey (insert (insert (Tree.node 5 (50 : Int)
            (Tree.node 3 30 Tree.nil Tree.nil)
            (Tree.node 7 70 Tree.nil Tree.nil)) 4 41) 4 42) 4 = 1
        ∧ search (insert (insert (Tree.node 5 (50 : Int)
            (Tree.node 3 30 Tree.nil Tree.nil)
            (Tree.node 7 70 Tree.nil Tree.nil)) 4 41) 4 42) 4 = some 42
        ∧ shape (insert (insert (Tree.node 5 (50 : Int)
            (Tree.node 3 30 Tree.nil Tree.nil)
            (Tree.node 7 70 Tree.nil Tree.nil)) 4 41) 4 42)
          = shape (insert (Tree.node 5 (50 : Int)
            (Tree.node 3 30 Tree.nil Tree.nil)
            (Tree.node 7 70 Tree.nil Tree.nil)) 4 41)
        ∧ tsize (insert (insert (Tree.node 5 (50 : Int)
            (Tree.node 3 30 Tree.nil Tree.nil)
            (Tree.node 7 70 Tree.nil Tree.nil)) 4 41) 4 42)
          = tsize (insert (Tree.node 5 (50 : Int)
            (Tree.node 3 30 Tree.nil Tree.nil)
            (Tree.node 7 70 Tree.nil Tree.nil)) 4 41)) :=
  ⟨by decide, C6_insert_overwrite _ 4 41 42 (by decide)⟩

/-- C7: the single-pass balance computation agrees with the naive
definition built from `height` at every node, and the height it computes
equals `height`. -/
theorem C7_balance_refinement {α : Type} (t : Tree α) :
    isBalanced t = balancedNaive t ∧ (check t).1 = height t := by
  constructor
  · rw [isBalanced, check_snd]
  · exact check_fst t

/-- C8: `height` satisfies the recursive definition (0 for an absent tree,
one plus the maximum child height for a node), equals the number of nodes
on the longest root-to-leaf path, and is 1 on a single-node tree. -/
theorem C8_height_def {α : Type} (k : Int) (v : α) (l r : Tree α)
    (t : Tree α) :
    height (Tree.nil : Tree α) = 0
      ∧ height (Tree.node k v l r) = 1 + max (height l) (height r)
      ∧ height t = (leafDepths t).foldr max 0
      ∧ height (Tree.node k v Tree.nil Tree.nil) = 1 := by
  refine ⟨rfl, rfl, height_eq_leafDepths t, ?_⟩
  simp [height]

/-- C9: for every tree with n nodes, the height is at least
ceil(log2(n+1)) and at most n. -/
theorem C9_height_bounds {α : Type} (t : Tree α) :
    Nat.clog 2 (tsize t + 1) ≤ height t ∧ height t ≤ tsize t := by
  refine ⟨?_, height_le_tsize t⟩
  exact (Nat.le_pow_iff_clog_le (by norm_num)).1 (tsize_lt_two_pow_height t)

/-- C10: deleting one key of a valid BST never changes the search result of
any other key. -/
theorem C10_delete_frame {α : Type} (t : Tree α) (k q : Int)
    (hb : isBST t = true) (hne : q ≠ k) :
    search (delete t k).1 q = search t q := by
  have h := search_delTree t k q hb
  rw [delete, h, if_neg hne]

/-- C10 witness: on the tree {3, 5, 7}, deleting 3 leaves the result of
searching 7 unchanged. -/
theorem C10_delete_frame_witness :
    isBST (Tree.node 5 (50 : Int) (Tree.node 3 30 Tree.nil Tree.nil)
        (Tree.node 7 70 Tree.nil Tree.nil)) = true
      ∧ (7 : Int) ≠ 3
      ∧ search (delete (Tree.node 5 (50 : Int)
          (Tree.node 3 30 Tree.nil Tree.nil)
          (Tree.node 7 70 Tree.nil Tree.nil)) 3).1 7
        = search (Tree.node 5 (50 : Int) (Tree.node 3 30 Tree.nil Tree.nil)
          (Tree.node 7 70 Tree.nil Tree.nil)) 7 :=
  ⟨by decide, by decide, C10_delete_frame _ 3 7 (by decide) (by decide)⟩

end BSTSpec
